import Mathlib

/-!
Shallow embedding of the local Web-of-Trust engine of the nostr-wot-sdk
repository (src/utils.ts, src/local/relay.ts, src/local/wot.ts), together
with proofs about its trust scoring, relay-result merging, sync loop and
BFS distance queries.

Conventions used throughout:
* JS strings are Lean `String`; JS numbers that hold hop counts, path
  counts and timestamps are `Nat`; JS floating-point scores and weights
  are embedded as `ℚ` (all scoring operations are field operations plus
  `min`/`max`, which `ℚ` models exactly).
* A JS `Map` is embedded as an insertion-ordered association list
  (`Map.set` replaces the value in place, keeping the key position,
  which is what `setA` does); a JS `Set` of strings used only for
  membership is embedded as a duplicate-free `List` grown by `addSet`.
* `async`/`await` code in the source performs its awaits sequentially,
  so it is embedded by ordinary sequential state passing.
-/

namespace NostrWot

/-- A Nostr identity: a 64-character hex public key. -/
abbrev Pubkey := String

/-- Embedding of the kind-3 contact event (types.ts `NostrContactEvent`)
restricted to the fields the local engine reads: `pubkey`, `created_at`
and `tags`. The `id`, `content`, `sig` and constant `kind` fields are
never inspected by the merge, extraction or sync code modelled here. -/
structure NostrContactEvent where
  pubkey : Pubkey
  created_at : Nat
  tags : List (List String)
deriving Repr, DecidableEq

/-- Character class of the regex `[0-9a-f]` with the `i` flag. -/
def isHexChar (c : Char) : Bool :=
  c.isDigit || (('a' ≤ c) && (c ≤ 'f')) || (('A' ≤ c) && (c ≤ 'F'))

/-- utils.ts `isValidPubkey`: the regex test `/^[0-9a-f]{64}$/i`. -/
def isValidPubkey (pubkey : String) : Bool :=
  pubkey.data.length = 64 && pubkey.data.all isHexChar

/-- JS `toLowerCase` embedded as a per-character lowercase map (on the
single-byte identifier strings handled here this is the same function
as `String.toLower`, in a form the kernel evaluates directly). -/
def toLowerStr (s : String) : String := String.mk (s.data.map Char.toLower)

/-- utils.ts `normalizePubkey`: lowercases the pubkey. -/
def normalizePubkey (pubkey : String) : String :=
  toLowerStr pubkey

/-- Scoring configuration (types.ts `ScoringConfig`).
The JS object `distanceWeights : Record<number, number>` is embedded as an
association list from hop count to weight. -/
structure ScoringConfig where
  distanceWeights : List (Nat × ℚ)
  mutualBonus : ℚ
  pathBonus : ℚ
  maxPathBonus : ℚ

/-- Query result (types.ts `DistanceResult`) restricted to the fields the
local engine produces and the scoring function reads; the `score` field
of the TS interface is neither set nor read by the modelled code. The
optional `mutual` flag is an `Option Bool` because the TS field is
optional and `calculateTrustScore` tests it with `=== true`. -/
structure DistanceResult where
  hops : Nat
  paths : Nat
  bridges : List Pubkey
  isMutual : Option Bool
deriving Repr, DecidableEq

/-- First-match lookup in an association list (the embedding of indexing
a JS object / `Map.get`). -/
def lookupA {κ α : Type} [DecidableEq κ] : List (κ × α) → κ → Option α
  | [], _ => none
  | (k0, v0) :: rest, k => if k = k0 then some v0 else lookupA rest k

/-- `Math.max` over the (nonempty) list of numeric keys of a JS object;
`none` plays the role of the empty-spread `-Infinity`. -/
def maxKey : List Nat → Option Nat
  | [] => none
  | k :: ks => some (ks.foldl max k)

/-- utils.ts `calculateTrustScore`, line by line:
`baseScore = 1 / (hops + 1)`;
`distanceWeight = distanceWeights[hops] ?? distanceWeights[maxDefinedHop] ?? 0.1`
with `maxDefinedHop = Math.max(...Object.keys(distanceWeights).map(Number))`;
`bonuses` starts at 0, gets `+= mutualBonus` when `mutual === true` and
`+= Math.min(pathBonus * (paths - 1), maxPathBonus)` when `paths > 1`;
finally `score = baseScore * distanceWeight * (1 + bonuses)` clamped by
`Math.min(1, Math.max(0, score))`. -/
def calculateTrustScore (result : DistanceResult) (scoring : ScoringConfig) : ℚ :=
  let baseScore : ℚ := 1 / ((result.hops : ℚ) + 1)
  let distanceWeight : ℚ :=
    match lookupA scoring.distanceWeights result.hops with
    | some w => w
    | none =>
      match maxKey (scoring.distanceWeights.map Prod.fst) with
      | some m =>
        match lookupA scoring.distanceWeights m with
        | some w => w
        | none => 1 / 10
      | none => 1 / 10
  let bonuses0 : ℚ := 0
  let bonuses1 : ℚ :=
    if result.isMutual = some true then bonuses0 + scoring.mutualBonus else bonuses0
  let bonuses : ℚ :=
    if 1 < result.paths then
      bonuses1 + min (scoring.pathBonus * ((result.paths : ℚ) - 1)) scoring.maxPathBonus
    else bonuses1
  let score : ℚ := baseScore * distanceWeight * (1 + bonuses)
  min 1 (max 0 score)

/-- The bonus term exactly as the specification words it:
`bonus = (mutual ? mutualBonus : 0) + min(pathBonus * (paths - 1), maxPathBonus)`
for `paths > 1`, else 0. -/
def specBonus (result : DistanceResult) (scoring : ScoringConfig) : ℚ :=
  (if result.isMutual = some true then scoring.mutualBonus else 0) +
    (if 1 < result.paths then
      min (scoring.pathBonus * ((result.paths : ℚ) - 1)) scoring.maxPathBonus
    else 0)

/-- The distance weight for a hop count: the configured multiplier for
this exact hop count, otherwise the multiplier of the largest configured
hop count (the specification is silent about a wholly unconfigured map,
where the code uses 0.1). -/
def specWeight (scoring : ScoringConfig) (h : Nat) : ℚ :=
  match lookupA scoring.distanceWeights h with
  | some w => w
  | none =>
    match maxKey (scoring.distanceWeights.map Prod.fst) with
    | some m =>
      match lookupA scoring.distanceWeights m with
      | some w => w
      | none => 1 / 10
    | none => 1 / 10

/-- The score formula exactly as the specification claims it:
`score = clamp(base * distanceWeight + bonus, 0, 1)` — the bonus is
added to the weighted base. -/
def specScoreAdd (result : DistanceResult) (scoring : ScoringConfig) : ℚ :=
  min 1 (max 0
    ((1 / ((result.hops : ℚ) + 1)) * specWeight scoring result.hops
      + specBonus result scoring))

/-- The amended score formula:
`score = clamp(base * distanceWeight * (1 + bonus), 0, 1)` — the bonus
multiplies the weighted base. -/
def specScoreMul (result : DistanceResult) (scoring : ScoringConfig) : ℚ :=
  min 1 (max 0
    ((1 / ((result.hops : ℚ) + 1)) * specWeight scoring result.hops
      * (1 + specBonus result scoring)))

/-- utils.ts `DEFAULT_SCORING`. -/
def DEFAULT_SCORING : ScoringConfig :=
  { distanceWeights := [(1, 1), (2, 1 / 2), (3, 1 / 4), (4, 1 / 10)]
    mutualBonus := 1 / 2
    pathBonus := 1 / 10
    maxPathBonus := 1 / 2 }

/-- A direct mutual follow: 1 hop, a single path, mutual flag set. -/
def resultMutualOneHop : DistanceResult :=
  { hops := 1, paths := 1, bridges := [], isMutual := some true }

/-- Embedding of `Map.set` on an insertion-ordered association list: an
existing key keeps its position and gets the new value, a new key is
appended at the end (JS `Map` iteration order is insertion order). -/
def setA {κ α : Type} [DecidableEq κ] : List (κ × α) → κ → α → List (κ × α)
  | [], k, v => [(k, v)]
  | (k0, v0) :: rest, k, v =>
    if k0 = k then (k0, v) :: rest else (k0, v0) :: setA rest k v

/-- One step of the merge loop in `RelayPool.fetchContactLists`
(local/relay.ts): `const existing = results.get(event.pubkey); if
(!existing || event.created_at > existing.created_at)
results.set(event.pubkey, event)`. Note the key is `event.pubkey`
verbatim. -/
def mergeStep (results : List (Pubkey × NostrContactEvent)) (event : NostrContactEvent) :
    List (Pubkey × NostrContactEvent) :=
  match lookupA results event.pubkey with
  | none => setA results event.pubkey event
  | some existing =>
    if existing.created_at < event.created_at then setA results event.pubkey event
    else results

/-- The merge phase of `RelayPool.fetchContactLists`: starting from an
empty map, fold the per-relay event lists (in relay order) through
`mergeStep`, keeping the most recent event for each pubkey. -/
def mergeEvents (allEvents : List (List NostrContactEvent)) :
    List (Pubkey × NostrContactEvent) :=
  allEvents.foldl (fun results events => events.foldl mergeStep results) []

/-- local/relay.ts `extractFollows`: collect `tag[1].toLowerCase()` for
every tag whose first entry is the letter p, whose second entry is a
truthy (nonempty) string, and which passes the 64-hex-character test. -/
def extractFollows (event : NostrContactEvent) : List Pubkey :=
  event.tags.foldl (fun follows tag =>
    match tag with
    | t0 :: t1 :: _ =>
      if t0 = "p" && t1 ≠ "" && isValidPubkey t1 then follows ++ [toLowerStr t1]
      else follows
    | _ => follows) []

/-- The `?? / Map.get`-style best-so-far fold used to characterise the
merge: the latest-timestamped event among a traversal, earlier entry
winning ties. -/
def pickLatest (init : Option NostrContactEvent) (events : List NostrContactEvent) :
    Option NostrContactEvent :=
  events.foldl (fun best e =>
    match best with
    | none => some e
    | some ex => if ex.created_at < e.created_at then some e else best) init

/-! ## Sync engine (local/wot.ts `LocalWoT.sync`)

Storage is modelled by its follow-list view: a function from pubkey to
the optional persisted follow list (`getFollows` reads
`follows:<pubkey>` and JSON-parses it; the constant key prefix and the
JSON round-trip are identities of this view). A sync run performs a
sequence of `setFollows` writes that depends only on the fetched events,
never on prior storage contents, so it is embedded as the write list
`syncWrites` applied over the previous storage by `applyWrites`. -/

/-- `Set.add` on a JS string set used for membership tests: adding an
already-present element is a no-op, a new element is appended. -/
def addSet (s : List Pubkey) (x : Pubkey) : List Pubkey :=
  if x ∈ s then s else s ++ [x]

/-- The mutable state threaded through one depth round of `sync`:
accumulated `setFollows` writes, the visited set and the next layer. -/
structure SyncAcc where
  writes : List (Pubkey × List Pubkey)
  visited : List Pubkey
  nextLayer : List Pubkey

/-- Body of `for (const [pubkey, event] of events)` in `sync`: mark the
author visited, persist its extracted follows, and when more rounds
remain (`d < depth - 1`) add its not-yet-visited follows to the next
layer. -/
def processEvent (depth d : Nat) (acc : SyncAcc) (entry : Pubkey × NostrContactEvent) :
    SyncAcc :=
  let pubkey := entry.1
  let visited1 := addSet acc.visited pubkey
  let follows := extractFollows entry.2
  let nextLayer1 :=
    if d < depth - 1 then
      follows.foldl (fun nl follow => if follow ∈ visited1 then nl else addSet nl follow)
        acc.nextLayer
    else acc.nextLayer
  { writes := acc.writes ++ [(pubkey, follows)], visited := visited1, nextLayer := nextLayer1 }

/-- One batch of `sync`: fetch the contact lists, process every returned
`(pubkey, event)` entry, then mark every batch pubkey that got no event
as visited and persist an empty follow list for it. -/
def processBatch (fetchCL : List Pubkey → List (Pubkey × NostrContactEvent)) (depth d : Nat)
    (acc : SyncAcc) (batch : List Pubkey) : SyncAcc :=
  let events := fetchCL batch
  let acc1 := events.foldl (processEvent depth d) acc
  batch.foldl (fun a pubkey =>
    if (lookupA events pubkey).isSome then a
    else { a with visited := addSet a.visited pubkey, writes := a.writes ++ [(pubkey, [])] })
    acc1

/-- utils.ts `chunk`, with the list length as structural fuel (the JS
loop advances by `size ≥ 1` per iteration, so length-many iterations
always suffice; `sync` calls it with size 100). -/
def chunkGo {α : Type} (size : Nat) : Nat → List α → List (List α)
  | 0, _ => []
  | _ + 1, [] => []
  | fuel + 1, l => l.take size :: chunkGo size fuel (l.drop size)

/-- utils.ts `chunk (array, size)`. -/
def chunkList {α : Type} (l : List α) (size : Nat) : List (List α) :=
  chunkGo size l.length l

/-- The depth loop of `sync`, with the remaining round count as fuel
(`rem` starts at `depth`, so round `d` runs exactly when `d < depth`):
filter the layer by the visited set, stop on an empty frontier,
otherwise process the 100-element batches and recurse on the next
layer. -/
def syncLoop (fetchCL : List Pubkey → List (Pubkey × NostrContactEvent)) (depth : Nat) :
    Nat → Nat → List Pubkey → List Pubkey → List (Pubkey × List Pubkey) →
      List (Pubkey × List Pubkey)
  | 0, _, _, _, writes => writes
  | rem + 1, d, visited, layer, writes =>
    let toFetch := layer.filter (fun pk => pk ∉ visited)
    if toFetch.isEmpty then writes
    else
      let acc := (chunkList toFetch 100).foldl (processBatch fetchCL depth d)
        { writes := writes, visited := visited, nextLayer := [] }
      syncLoop fetchCL depth rem (d + 1) acc.visited acc.nextLayer acc.writes

/-- The sequence of `setFollows` writes performed by
`LocalWoT.sync({depth})` for a given deterministic pool response
function. -/
def syncWrites (fetchCL : List Pubkey → List (Pubkey × NostrContactEvent))
    (myPubkey : Pubkey) (depth : Nat) : List (Pubkey × List Pubkey) :=
  syncLoop fetchCL depth depth 0 [] [myPubkey] []

/-- Apply a sequence of `setFollows` writes, in order, over a storage
view (later writes overwrite earlier ones). -/
def applyWrites (writes : List (Pubkey × List Pubkey))
    (storage : Pubkey → Option (List Pubkey)) : Pubkey → Option (List Pubkey) :=
  writes.foldl (fun st w k => if k = w.1 then some w.2 else st k) storage

/-- The follow-list view of storage after one `sync` run. -/
def runSync (fetchCL : List Pubkey → List (Pubkey × NostrContactEvent))
    (myPubkey : Pubkey) (depth : Nat) (storage : Pubkey → Option (List Pubkey)) :
    Pubkey → Option (List Pubkey) :=
  applyWrites (syncWrites fetchCL myPubkey depth) storage

/-- The last value written for a key by a write sequence, if any. -/
def lastVal {α : Type} : List (Pubkey × α) → Pubkey → Option α
  | [], _ => none
  | w :: rest, k =>
    match lastVal rest k with
    | some v => some v
    | none => if k = w.1 then some w.2 else none

/-! ## Distance queries (local/wot.ts `findShortestPath` and wrappers) -/

/-- The persisted snapshot seen by the query engine: the follow list of
each pubkey, or `none` when nothing is persisted for it. -/
abbrev Graph := Pubkey → Option (List Pubkey)

/-- The out-edges used by traversal: a pubkey with no persisted list is
a dead end (`if (!follows) continue`). -/
def neighbors (g : Graph) (pk : Pubkey) : List Pubkey :=
  (g pk).getD []

/-- The per-layer mutable state of `findShortestPath`: the
`foundInLayer` flag, the running path count and bridge list, the visited
set and the next layer. -/
structure LayerAcc where
  found : Bool
  pathCount : Nat
  bridges : List Pubkey
  visited : List Pubkey
  nextLayer : List Pubkey

/-- The body of `for (const follow of follows)` in `findShortestPath`.
When `follow === to`: set `foundInLayer`, bump the path count, and track
a bridge — push `pubkey` itself at distance 1; at deeper distances the
source calls `currentLayer.find` with an `async` predicate, and since
the promise the predicate returns is always truthy, `find` always
yields the first element of the current layer, which is pushed if not
yet recorded. Otherwise add an unvisited follow to the visited set and
the next layer. -/
def stepFollow (tgt : Pubkey) (currentLayer : List Pubkey) (distance : Nat) (pubkey : Pubkey)
    (acc : LayerAcc) (follow : Pubkey) : LayerAcc :=
  if follow = tgt then
    let acc1 : LayerAcc := { acc with found := true, pathCount := acc.pathCount + 1 }
    if distance = 1 then { acc1 with bridges := acc1.bridges ++ [pubkey] }
    else if pubkey ∈ acc1.bridges then acc1
    else
      match currentLayer.head? with
      | some firstHop =>
        if firstHop ∈ acc1.bridges then acc1
        else { acc1 with bridges := acc1.bridges ++ [firstHop] }
      | none => acc1
  else if follow ∈ acc.visited then acc
  else { acc with visited := acc.visited ++ [follow], nextLayer := acc.nextLayer ++ [follow] }

/-- The body of `for (const pubkey of currentLayer)`: skip pubkeys with
no persisted follow list, otherwise fold over their follows. -/
def stepPubkey (g : Graph) (tgt : Pubkey) (currentLayer : List Pubkey) (distance : Nat)
    (acc : LayerAcc) (pubkey : Pubkey) : LayerAcc :=
  match g pubkey with
  | none => acc
  | some follows => follows.foldl (stepFollow tgt currentLayer distance pubkey) acc

/-- The `while (currentLayer.length > 0 && distance < maxHops)` loop of
`findShortestPath`, with `fuel = maxHops - distance` as structural fuel
(so `fuel = 0` is exactly `distance = maxHops`). Each iteration
increments the distance, folds the layer, returns
`(distance, pathCount, bridges)` when the target was found in the
layer, and otherwise recurses on the next layer. -/
def bfsLoop (g : Graph) (tgt : Pubkey) :
    Nat → List Pubkey → List Pubkey → Nat → Nat → List Pubkey →
      Option (Nat × Nat × List Pubkey)
  | 0, _, _, _, _, _ => none
  | fuel + 1, visited, currentLayer, distance, pathCount, bridges =>
    if currentLayer.isEmpty then none
    else
      let acc := currentLayer.foldl (stepPubkey g tgt currentLayer (distance + 1))
        { found := false, pathCount := pathCount, bridges := bridges,
          visited := visited, nextLayer := [] }
      if acc.found then some (distance + 1, acc.pathCount, acc.bridges)
      else bfsLoop g tgt fuel acc.visited acc.nextLayer (distance + 1) acc.pathCount acc.bridges

/-- local/wot.ts `findShortestPath(from, to, maxHops)`: the identity case
returns distance 0 with one degenerate path and no bridges, otherwise
run the BFS with `visited = {from}`, `currentLayer = [from]`,
`distance = 0`. -/
def findShortestPath (g : Graph) (src tgt : Pubkey) (maxHops : Nat) :
    Option (Nat × Nat × List Pubkey) :=
  if src = tgt then some (0, 1, [])
  else bfsLoop g tgt maxHops [src] [src] 0 0 []

/-- errors.ts `ValidationError`, as its observable message/field data. -/
structure ValidationError where
  message : String
  field : String
deriving Repr, DecidableEq

/-- local/wot.ts `validatePubkey`: reject an empty (falsy) or malformed
pubkey, otherwise return it normalized to lowercase. -/
def validatePubkey (pubkey paramName : String) : Except ValidationError Pubkey :=
  if pubkey = "" then
    .error { message := paramName ++ " is required", field := paramName }
  else if !isValidPubkey pubkey then
    .error { message := paramName ++ " must be a valid 64-character hex string",
             field := paramName }
  else .ok (normalizePubkey pubkey)

/-- local/wot.ts `doesFollow`: `follows?.includes(to) ?? false` on the
persisted list of `src`. -/
def doesFollow (g : Graph) (src tgt : Pubkey) : Bool :=
  match g src with
  | some follows => follows.contains tgt
  | none => false

/-- local/wot.ts `getDistance(target, {maxHops})` against snapshot `g`
with the constructor-normalized own pubkey: validate the target, then
return `result?.distance ?? null`. -/
def getDistance (g : Graph) (myPubkey target : Pubkey) (maxHops : Nat) :
    Except ValidationError (Option Nat) :=
  match validatePubkey target "target" with
  | .error e => .error e
  | .ok t => .ok ((findShortestPath g myPubkey t maxHops).map (fun r => r.1))

/-- local/wot.ts `isInMyWoT(target, options)`:
`distance !== null && distance <= maxHops`, where both the distance call
and the check resolve the same `options.maxHops ?? this.maxHops`. -/
def isInMyWoT (g : Graph) (myPubkey target : Pubkey) (maxHops : Nat) :
    Except ValidationError Bool :=
  match getDistance g myPubkey target maxHops with
  | .error e => .error e
  | .ok distance =>
    .ok (match distance with
      | none => false
      | some d => decide (d ≤ maxHops))

/-- local/wot.ts `getDetails(target, {maxHops})`: shortest-path search
plus the independent mutual-follow lookup. -/
def getDetails (g : Graph) (myPubkey target : Pubkey) (maxHops : Nat) :
    Except ValidationError (Option DistanceResult) :=
  match validatePubkey target "target" with
  | .error e => .error e
  | .ok t =>
    match findShortestPath g myPubkey t maxHops with
    | none => .ok none
    | some r =>
      .ok (some { hops := r.1, paths := r.2.1, bridges := r.2.2,
                  isMutual := some (doesFollow g t myPubkey) })

/-- Existence of a directed walk of the given length in the snapshot:
the specification-side notion of hop distance (`hops` between two
identities is the least such length). -/
def walkFrom (g : Graph) (src : Pubkey) : Nat → Pubkey → Prop
  | 0, b => src = b
  | n + 1, b => ∃ c, walkFrom g src n c ∧ b ∈ neighbors g c

/-- A 64-character pubkey made of one repeated hex character. -/
def mkPk (c : Char) : Pubkey := String.mk (List.replicate 64 c)

/-- Concrete identities for scenario evaluations. -/
def pkR : Pubkey := mkPk 'a'

def pkA : Pubkey := mkPk 'b'

def pkB : Pubkey := mkPk 'c'

def pkT : Pubkey := mkPk 'd'

/-- An author identifier written with uppercase hex digits. -/
def pkU : Pubkey := mkPk 'A'

/-- An attestation for `pkT` with the older timestamp. -/
def evOld : NostrContactEvent := { pubkey := pkT, created_at := 10, tags := [["p", pkA]] }

/-- An attestation for `pkT` with the newer timestamp. -/
def evNew : NostrContactEvent := { pubkey := pkT, created_at := 20, tags := [["p", pkB]] }

/-- An attestation authored under the uppercase identifier `pkU`,
following `pkA`. -/
def evU : NostrContactEvent := { pubkey := pkU, created_at := 1, tags := [["p", pkA]] }

/-- The scenario snapshot: the root `pkR` follows exactly `pkA` and
`pkB`, both of which follow the target `pkT`; nothing is persisted for
`pkT`. -/
def gScenario : Graph := fun pk =>
  if pk = pkR then some [pkA, pkB]
  else if pk = pkA then some [pkT]
  else if pk = pkB then some [pkT]
  else none

/-! ## Theorems -/

/-- Looking a key up after `setA`: the written key sees the new value,
every other key is untouched. -/
theorem lookupA_setA {κ α : Type} [DecidableEq κ] (m : List (κ × α)) (k0 k : κ) (v : α) :
    lookupA (setA m k0 v) k = if k = k0 then some v else lookupA m k := by
  induction m with
  | nil => simp [setA, lookupA]
  | cons hd tl ih =>
    obtain ⟨k1, v1⟩ := hd
    simp only [setA]
    by_cases h1 : k1 = k0 <;> by_cases h2 : k = k1 <;>
      simp_all [lookupA]

/-- A fold of `mergeStep` is, per key, the latest-timestamp pick over the
events carrying that key. -/
theorem lookupA_foldl_mergeStep (events : List NostrContactEvent)
    (results : List (Pubkey × NostrContactEvent)) (k : Pubkey) :
    lookupA (events.foldl mergeStep results) k =
      pickLatest (lookupA results k) (events.filter (fun e => e.pubkey = k)) := by
  induction events generalizing results with
  | nil => simp [pickLatest]
  | cons e rest ih =>
    simp only [List.foldl_cons, List.filter_cons]
    by_cases hk : e.pubkey = k
    · rw [ih]
      have hstep : lookupA (mergeStep results e) k =
          match lookupA results k with
          | none => some e
          | some ex => if ex.created_at < e.created_at then some e else some ex := by
        simp only [mergeStep, hk]
        cases hl : lookupA results k with
        | none => simp [lookupA_setA, hk]
        | some ex =>
          by_cases hc : ex.created_at < e.created_at <;> simp [hc, lookupA_setA, hk, hl]
      rw [hstep]
      cases hl : lookupA results k with
      | none => simp [hk, pickLatest]
      | some ex => by_cases hc : ex.created_at < e.created_at <;> simp [hk, hc, pickLatest]
    · rw [ih]
      have hstep : lookupA (mergeStep results e) k = lookupA results k := by
        have hne : k ≠ e.pubkey := fun h => hk h.symm
        simp only [mergeStep]
        cases lookupA results e.pubkey with
        | none => simp [lookupA_setA, hne]
        | some ex =>
          by_cases hc : ex.created_at < e.created_at <;> simp [hc, lookupA_setA, hne]
      rw [hstep]
      simp [hk]

/-- C5. When two sources return attestations for the same identity with
timestamps `t1 < t2`, the merged result of `RelayPool.fetchContactLists`
holds the `t2` attestation under that identity, in either merge order. -/
theorem merge_last_writer_wins
    (l1 l2 : List NostrContactEvent) (e1 e2 : NostrContactEvent) (k : Pubkey)
    (h1 : l1.filter (fun e => e.pubkey = k) = [e1])
    (h2 : l2.filter (fun e => e.pubkey = k) = [e2])
    (ht : e1.created_at < e2.created_at) :
    lookupA (mergeEvents [l1, l2]) k = some e2 ∧
      lookupA (mergeEvents [l2, l1]) k = some e2 := by
  have hm1 : mergeEvents [l1, l2] = l2.foldl mergeStep (l1.foldl mergeStep []) := rfl
  have hm2 : mergeEvents [l2, l1] = l1.foldl mergeStep (l2.foldl mergeStep []) := rfl
  have hn : ¬ e2.created_at < e1.created_at := Nat.lt_asymm ht
  constructor
  · rw [hm1, lookupA_foldl_mergeStep, lookupA_foldl_mergeStep, h1, h2]
    simp [pickLatest, lookupA, ht]
  · rw [hm2, lookupA_foldl_mergeStep, lookupA_foldl_mergeStep, h1, h2]
    simp [pickLatest, lookupA, hn]

/-- C5, witness: two singleton sources for `pkT` with timestamps 10 and
20; the merged map holds the timestamp-20 attestation either way. -/
theorem merge_last_writer_wins_witness :
    lookupA (mergeEvents [[evOld], [evNew]]) pkT = some evNew ∧
      lookupA (mergeEvents [[evNew], [evOld]]) pkT = some evNew :=
  merge_last_writer_wins [evOld] [evNew] evOld evNew pkT (by decide) (by decide) (by decide)

/-- A key that resolves after one `mergeStep` either resolved to the
same event before, or is exactly the verbatim author of the new event. -/
theorem lookupA_mergeStep_some (m : List (Pubkey × NostrContactEvent))
    (ev : NostrContactEvent) (k : Pubkey) (e : NostrContactEvent)
    (h : lookupA (mergeStep m ev) k = some e) :
    lookupA m k = some e ∨ (e = ev ∧ k = ev.pubkey) := by
  cases hl : lookupA m ev.pubkey with
  | none =>
    simp only [mergeStep, hl, lookupA_setA] at h
    by_cases hk : k = ev.pubkey
    · rw [if_pos hk] at h
      exact Or.inr ⟨(Option.some.inj h).symm, hk⟩
    · rw [if_neg hk] at h
      exact Or.inl h
  | some ex =>
    simp only [mergeStep, hl] at h
    by_cases hc : ex.created_at < ev.created_at
    · rw [if_pos hc, lookupA_setA] at h
      by_cases hk : k = ev.pubkey
      · rw [if_pos hk] at h
        exact Or.inr ⟨(Option.some.inj h).symm, hk⟩
      · rw [if_neg hk] at h
        exact Or.inl h
    · rw [if_neg hc] at h
      exact Or.inl h

/-- A key that resolves after folding a list of events through
`mergeStep` either resolved before, or equals the verbatim author of
its value. -/
theorem lookupA_foldl_mergeStep_some (events : List NostrContactEvent) :
    ∀ (m : List (Pubkey × NostrContactEvent)) (k : Pubkey) (e : NostrContactEvent),
      lookupA (events.foldl mergeStep m) k = some e →
        lookupA m k = some e ∨ k = e.pubkey := by
  induction events with
  | nil => exact fun m k e h => Or.inl h
  | cons ev rest ih =>
    intro m k e h
    rcases ih (mergeStep m ev) k e h with h1 | h2
    · rcases lookupA_mergeStep_some m ev k e h1 with h3 | ⟨he, hk⟩
      · exact Or.inl h3
      · exact Or.inr (he ▸ hk)
    · exact Or.inr h2

/-- C4, amended theorem. Every entry of the merged result map of
`RelayPool.fetchContactLists` is stored under the author identifier of
its event exactly as the source returned it — no lowercasing is applied
to `event.pubkey`; only follow-list tags and user-supplied query inputs
are normalized. -/
theorem mergeEvents_key_eq_author (allEvents : List (List NostrContactEvent))
    (k : Pubkey) (e : NostrContactEvent)
    (h : lookupA (mergeEvents allEvents) k = some e) : k = e.pubkey := by
  suffices hgen : ∀ (all : List (List NostrContactEvent))
      (m : List (Pubkey × NostrContactEvent)),
      lookupA (all.foldl (fun results events => events.foldl mergeStep results) m) k = some e →
        lookupA m k = some e ∨ k = e.pubkey by
    rcases hgen allEvents [] h with h1 | h2
    · exact absurd h1 (by simp [lookupA])
    · exact h2
  intro all
  induction all with
  | nil => exact fun m h1 => Or.inl h1
  | cons events rest ih =>
    intro m h1
    rcases ih (events.foldl mergeStep m) h1 with h2 | h3
    · exact lookupA_foldl_mergeStep_some events m k e h2
    · exact Or.inr h3

/-- C4, witness for the amended theorem: a single source returning the
single uppercase-authored attestation `evU`; the merged map resolves the
uppercase key to it, and the key is the verbatim author. -/
theorem mergeEvents_key_eq_author_witness :
    lookupA (mergeEvents [[evU]]) pkU = some evU ∧ pkU = evU.pubkey :=
  ⟨by decide, mergeEvents_key_eq_author [[evU]] pkU evU (by decide)⟩

/-- C4, counterexample. Syncing against a source whose attestation is
authored under the uppercase identifier `pkU` persists the follow list
under the uppercase key itself, which is not lowercase — so identities
are not always canonicalized before being used as persistence keys. -/
theorem sync_persists_under_uppercase_key :
    runSync (fun _ => [(pkU, evU)]) pkR 1 (fun _ => none) pkU = some [pkA] ∧
      normalizePubkey pkU ≠ pkU := by
  constructor
  · decide
  · decide

/-- The last write of an appended single write wins for its key and is
invisible to other keys. -/
theorem lastVal_append_single {α : Type} (writes : List (Pubkey × α)) (k0 k : Pubkey)
    (v : α) :
    lastVal (writes ++ [(k0, v)]) k = if k = k0 then some v else lastVal writes k := by
  induction writes with
  | nil => simp [lastVal]
  | cons w rest ih =>
    by_cases hk : k = k0
    · subst hk
      simp [List.cons_append, lastVal, ih]
    · simp [List.cons_append, lastVal, ih, hk]

/-- Applying a write sequence reads back as: the last write for the key
if there is one, otherwise the underlying storage. -/
theorem applyWrites_eq (writes : List (Pubkey × List Pubkey))
    (storage : Pubkey → Option (List Pubkey)) (k : Pubkey) :
    applyWrites writes storage k =
      match lastVal writes k with
      | some v => some v
      | none => storage k := by
  induction writes generalizing storage with
  | nil => rfl
  | cons w rest ih =>
    simp only [applyWrites, List.foldl_cons] at ih ⊢
    rw [ih]
    cases hl : lastVal rest k with
    | some v => simp [lastVal, hl]
    | none =>
      simp only [lastVal, hl]
      by_cases hk : k = w.1 <;> simp [hk]

/-- C8. Running `sync` twice with the same root and depth against an
unchanged deterministic upstream leaves the persisted follow-list
snapshot identical to the snapshot after the first run: the write
sequence depends only on the fetched events, and re-applying the same
writes changes nothing. -/
theorem sync_idempotent (fetchCL : List Pubkey → List (Pubkey × NostrContactEvent))
    (myPubkey : Pubkey) (depth : Nat) (storage : Pubkey → Option (List Pubkey)) :
    runSync fetchCL myPubkey depth (runSync fetchCL myPubkey depth storage) =
      runSync fetchCL myPubkey depth storage := by
  funext k
  simp only [runSync]
  rw [applyWrites_eq, applyWrites_eq]
  cases hl : lastVal (syncWrites fetchCL myPubkey depth) k <;> simp

/-- C2, counterexample. With a source pool that returns no attestation
at all (for example every source fails or times out before answering),
a depth-1 sync persists the explicit empty follow list for the root —
the unanswered identity is recorded as known-empty, not left in the
not-yet-known state. -/
theorem sync_persists_empty_for_unanswered :
    runSync (fun _ => []) pkR 1 (fun _ => none) pkR = some [] := by
  decide

/-- C2, amended theorem. An identity in a fetched batch for which the
merged pool response contains no attestation is persisted as an explicit
empty follow list and marked visited, exactly like a successful response
with zero follows (shown here for the root of a depth-1 sync). -/
theorem sync_unanswered_marked_known_empty
    (fetchCL : List Pubkey → List (Pubkey × NostrContactEvent)) (root : Pubkey)
    (storage : Pubkey → Option (List Pubkey))
    (h : lookupA (fetchCL [root]) root = none) :
    runSync fetchCL root 1 storage root = some [] := by
  have hw : syncWrites fetchCL root 1 =
      (processBatch fetchCL 1 0 { writes := [], visited := [], nextLayer := [] }
        [root]).writes := rfl
  simp only [runSync]
  rw [applyWrites_eq, hw]
  simp only [processBatch, List.foldl_cons, List.foldl_nil, h, Option.isSome_none,
    Bool.false_eq_true, if_false]
  rw [lastVal_append_single]
  simp

/-- C2, witness for the amended theorem at a concrete unanswered batch. -/
theorem sync_unanswered_marked_known_empty_witness :
    runSync (fun _ => []) pkB 1 (fun _ => none) pkB = some [] :=
  sync_unanswered_marked_known_empty (fun _ => []) pkB (fun _ => none) (by decide)

/-- `stepFollow` reports a find exactly when one was already recorded or
the processed follow is the target. -/
theorem stepFollow_found_iff (tgt : Pubkey) (cl : List Pubkey) (dist : Nat) (pk : Pubkey)
    (acc : LayerAcc) (f : Pubkey) :
    ((stepFollow tgt cl dist pk acc f).found = true) ↔ (acc.found = true ∨ f = tgt) := by
  by_cases hf : f = tgt
  · subst hf
    simp only [stepFollow, if_pos rfl]
    rcases cl with _ | ⟨c0, cs⟩ <;> split_ifs <;>
      simp [apply_ite LayerAcc.found]
  · simp only [stepFollow, if_neg hf]
    split_ifs <;> simp [hf]

/-- Folding a follow list records a find exactly when one was already
recorded or the target occurs among the follows. -/
theorem foldl_stepFollow_found_iff (tgt : Pubkey) (cl : List Pubkey) (dist : Nat)
    (pk : Pubkey) (follows : List Pubkey) :
    ∀ acc : LayerAcc,
      (((follows.foldl (stepFollow tgt cl dist pk) acc).found = true) ↔
        (acc.found = true ∨ tgt ∈ follows)) := by
  induction follows with
  | nil => simp
  | cons f rest ih =>
    intro acc
    simp only [List.foldl_cons, List.mem_cons]
    rw [ih, stepFollow_found_iff]
    constructor
    · rintro ((h | h) | h)
      · exact Or.inl h
      · exact Or.inr (Or.inl h.symm)
      · exact Or.inr (Or.inr h)
    · rintro (h | h | h)
      · exact Or.inl (Or.inl h)
      · exact Or.inl (Or.inr h.symm)
      · exact Or.inr h

/-- `stepPubkey` records a find exactly when one was already recorded or
the target is among the out-edges of the processed pubkey. -/
theorem stepPubkey_found_iff (g : Graph) (tgt : Pubkey) (cl : List Pubkey) (dist : Nat)
    (acc : LayerAcc) (pk : Pubkey) :
    ((stepPubkey g tgt cl dist acc pk).found = true) ↔
      (acc.found = true ∨ tgt ∈ neighbors g pk) := by
  simp only [stepPubkey, neighbors]
  cases g pk with
  | none => simp
  | some follows => simp [foldl_stepFollow_found_iff]

/-- Folding a whole layer records a find exactly when one was already
recorded or some layer member has the target among its out-edges. -/
theorem foldl_stepPubkey_found_iff (g : Graph) (tgt : Pubkey) (cl : List Pubkey)
    (dist : Nat) (layer : List Pubkey) :
    ∀ acc : LayerAcc,
      (((layer.foldl (stepPubkey g tgt cl dist) acc).found = true) ↔
        (acc.found = true ∨ ∃ pk ∈ layer, tgt ∈ neighbors g pk)) := by
  induction layer with
  | nil => simp
  | cons p rest ih =>
    intro acc
    simp only [List.foldl_cons]
    rw [ih, stepPubkey_found_iff]
    constructor
    · rintro ((h | h) | ⟨pk, hpk, hmem⟩)
      · exact Or.inl h
      · exact Or.inr ⟨p, List.mem_cons_self p rest, h⟩
      · exact Or.inr ⟨pk, List.mem_cons_of_mem p hpk, hmem⟩
    · rintro (h | ⟨pk, hpk, hmem⟩)
      · exact Or.inl (Or.inl h)
      · rcases List.mem_cons.mp hpk with h1 | h2
        · subst h1
          exact Or.inl (Or.inr hmem)
        · exact Or.inr ⟨pk, h2, hmem⟩

/-- Any element of the next layer after `stepFollow` was already there
or is the processed follow itself. -/
theorem stepFollow_next_mem (tgt : Pubkey) (cl : List Pubkey) (dist : Nat) (pk : Pubkey)
    (acc : LayerAcc) (f w : Pubkey)
    (h : w ∈ (stepFollow tgt cl dist pk acc f).nextLayer) :
    w ∈ acc.nextLayer ∨ w = f := by
  by_cases hf : f = tgt
  · subst hf
    simp only [stepFollow, if_pos rfl] at h
    rcases cl with _ | ⟨c0, cs⟩ <;> split_ifs at h <;>
      simp_all [apply_ite LayerAcc.nextLayer]
  · simp only [stepFollow, if_neg hf] at h
    split_ifs at h
    · exact Or.inl h
    · simp only [List.mem_append, List.mem_singleton] at h
      exact h

/-- Any element of the next layer after folding a follow list was
already there or occurs among the follows. -/
theorem foldl_stepFollow_next_mem (tgt : Pubkey) (cl : List Pubkey) (dist : Nat)
    (pk : Pubkey) (follows : List Pubkey) :
    ∀ (acc : LayerAcc) (w : Pubkey),
      w ∈ (follows.foldl (stepFollow tgt cl dist pk) acc).nextLayer →
        w ∈ acc.nextLayer ∨ w ∈ follows := by
  induction follows with
  | nil => exact fun acc w h => Or.inl h
  | cons f rest ih =>
    intro acc w h
    rcases ih (stepFollow tgt cl dist pk acc f) w h with h1 | h2
    · rcases stepFollow_next_mem tgt cl dist pk acc f w h1 with h3 | h4
      · exact Or.inl h3
      · exact Or.inr (h4 ▸ List.mem_cons_self f rest)
    · exact Or.inr (List.mem_cons_of_mem f h2)

/-- Any element of the next layer after `stepPubkey` was already there
or is an out-edge of the processed pubkey. -/
theorem stepPubkey_next_mem (g : Graph) (tgt : Pubkey) (cl : List Pubkey) (dist : Nat)
    (acc : LayerAcc) (pk w : Pubkey)
    (h : w ∈ (stepPubkey g tgt cl dist acc pk).nextLayer) :
    w ∈ acc.nextLayer ∨ w ∈ neighbors g pk := by
  simp only [stepPubkey] at h
  cases hg : g pk with
  | none =>
    rw [hg] at h
    exact Or.inl h
  | some follows =>
    rw [hg] at h
    rcases foldl_stepFollow_next_mem tgt cl dist pk follows acc w h with h1 | h2
    · exact Or.inl h1
    · right
      simp [neighbors, hg, h2]

/-- Any element of the next layer after folding a layer was already
there or is an out-edge of some layer member. -/
theorem foldl_stepPubkey_next_mem (g : Graph) (tgt : Pubkey) (cl : List Pubkey)
    (dist : Nat) (layer : List Pubkey) :
    ∀ (acc : LayerAcc) (w : Pubkey),
      w ∈ (layer.foldl (stepPubkey g tgt cl dist) acc).nextLayer →
        w ∈ acc.nextLayer ∨ ∃ pk ∈ layer, w ∈ neighbors g pk := by
  induction layer with
  | nil => exact fun acc w h => Or.inl h
  | cons p rest ih =>
    intro acc w h
    rcases ih (stepPubkey g tgt cl dist acc p) w h with h1 | ⟨pk, hpk, hmem⟩
    · rcases stepPubkey_next_mem g tgt cl dist acc p w h1 with h3 | h4
      · exact Or.inl h3
      · exact Or.inr ⟨p, List.mem_cons_self p rest, h4⟩
    · exact Or.inr ⟨pk, List.mem_cons_of_mem p hpk, hmem⟩

/-- Soundness and hop bound of the BFS loop: a returned hit is reachable
by a walk of exactly the reported length, and the reported length never
exceeds `distance + fuel`. -/
theorem bfsLoop_sound (g : Graph) (src tgt : Pubkey) :
    ∀ (fuel : Nat) (visited layer : List Pubkey) (dist pc : Nat) (br : List Pubkey)
      (r : Nat × Nat × List Pubkey),
      (∀ v ∈ layer, walkFrom g src dist v) →
      bfsLoop g tgt fuel visited layer dist pc br = some r →
      walkFrom g src r.1 tgt ∧ r.1 ≤ dist + fuel := by
  intro fuel
  induction fuel with
  | zero =>
    intro visited layer dist pc br r _ h
    exact absurd h (by simp [bfsLoop])
  | succ fuel ih =>
    intro visited layer dist pc br r hlayer h
    simp only [bfsLoop] at h
    by_cases hemp : layer.isEmpty
    · rw [if_pos hemp] at h
      exact absurd h (by simp)
    · rw [if_neg hemp] at h
      set acc := layer.foldl (stepPubkey g tgt layer (dist + 1))
        { found := false, pathCount := pc, bridges := br, visited := visited,
          nextLayer := [] } with hacc
      by_cases hfound : acc.found = true
      · rw [if_pos hfound] at h
        obtain ⟨pk, hpk, hmem⟩ : ∃ pk ∈ layer, tgt ∈ neighbors g pk := by
          rcases (foldl_stepPubkey_found_iff g tgt layer (dist + 1) layer _).mp hfound
            with h1 | h2
          · exact absurd h1 (by simp)
          · exact h2
        have hr : r.1 = dist + 1 := by
          have := Option.some.inj h
          rw [← this]
        constructor
        · rw [hr]
          exact ⟨pk, hlayer pk hpk, hmem⟩
        · omega
      · rw [if_neg hfound] at h
        have hnext : ∀ w ∈ acc.nextLayer, walkFrom g src (dist + 1) w := by
          intro w hw
          rcases foldl_stepPubkey_next_mem g tgt layer (dist + 1) layer _ w hw
            with h1 | ⟨pk, hpk, hmem⟩
          · exact absurd h1 (by simp)
          · exact ⟨pk, hlayer pk hpk, hmem⟩
        have hrec := ih acc.visited acc.nextLayer (dist + 1) acc.pathCount acc.bridges r
          hnext h
        exact ⟨hrec.1, by omega⟩

/-- Soundness and hop bound of `findShortestPath`: a non-null result
reports a length that some walk to the target realizes, and that length
never exceeds the `maxHops` bound the search was given. -/
theorem findShortestPath_sound (g : Graph) (src tgt : Pubkey) (maxHops : Nat)
    (r : Nat × Nat × List Pubkey) (h : findShortestPath g src tgt maxHops = some r) :
    walkFrom g src r.1 tgt ∧ r.1 ≤ maxHops := by
  simp only [findShortestPath] at h
  by_cases hst : src = tgt
  · rw [if_pos hst] at h
    have hr : (0, 1, ([] : List Pubkey)) = r := Option.some.inj h
    rw [← hr]
    exact ⟨hst, Nat.zero_le maxHops⟩
  · rw [if_neg hst] at h
    have hl : ∀ v ∈ [src], walkFrom g src 0 v := by
      intro v hv
      rw [List.mem_singleton] at hv
      subst hv
      rfl
    have := bfsLoop_sound g src tgt maxHops [src] [src] 0 0 [] r hl h
    exact ⟨this.1, by omega⟩

/-- C6. For identities whose true shortest-path distance exceeds the
`maxHops` bound (no walk of length at most `maxHops` reaches the
normalized target), `getDistance` returns the explicit not-connected
result `.ok none`: it neither throws nor reports any number, so in
particular never a number different from the true distance. -/
theorem getDistance_none_beyond_maxHops (g : Graph) (myPubkey target : Pubkey)
    (maxHops : Nat) (hval : isValidPubkey target = true)
    (_hne : myPubkey ≠ normalizePubkey target)
    (hfar : ∀ k, k ≤ maxHops → ¬ walkFrom g myPubkey k (normalizePubkey target)) :
    getDistance g myPubkey target maxHops = .ok none := by
  have htne : target ≠ "" := by
    intro h0
    rw [h0] at hval
    exact absurd hval (by decide)
  simp only [getDistance, validatePubkey, if_neg htne, hval, Bool.not_true,
    Bool.false_eq_true, if_false]
  cases hfsp : findShortestPath g myPubkey (normalizePubkey target) maxHops with
  | none => simp
  | some r =>
    have hs := findShortestPath_sound g myPubkey (normalizePubkey target) maxHops r hfsp
    exact absurd hs.1 (hfar r.1 hs.2)

/-- C6, witness: in the snapshot where every identity has an empty
follow list, `pkT` is unreachable from `pkR`, and the bounded query
returns the not-connected result. -/
theorem getDistance_none_beyond_maxHops_witness :
    getDistance (fun _ => some []) pkR pkT 5 = .ok none :=
  getDistance_none_beyond_maxHops (fun _ => some []) pkR pkT 5 (by decide) (by decide)
    (by
      intro k hk hw
      cases k with
      | zero =>
        simp only [walkFrom] at hw
        exact absurd hw (by decide)
      | succ k =>
        simp only [walkFrom] at hw
        obtain ⟨c, -, hc⟩ := hw
        simp [neighbors] at hc)

/-- C7. For every snapshot, every valid identity and every bound, the
query from an identity to itself succeeds with 0 hops, exactly one
degenerate path and an empty bridge set. -/
theorem getDetails_self_zero_hops (g : Graph) (x : Pubkey) (maxHops : Nat)
    (hval : isValidPubkey x = true) :
    ∃ r, getDetails g (normalizePubkey x) x maxHops = .ok (some r) ∧
      r.hops = 0 ∧ r.paths = 1 ∧ r.bridges = [] := by
  have hxne : x ≠ "" := by
    intro h0
    rw [h0] at hval
    exact absurd hval (by decide)
  refine ⟨{ hops := 0, paths := 1, bridges := [],
            isMutual := some (doesFollow g (normalizePubkey x) (normalizePubkey x)) },
    ?_, rfl, rfl, rfl⟩
  simp only [getDetails, validatePubkey, if_neg hxne, hval, Bool.not_true,
    Bool.false_eq_true, if_false, findShortestPath]
  simp

/-- C7, witness at a concrete valid identity over the empty snapshot. -/
theorem getDetails_self_zero_hops_witness :
    ∃ r, getDetails (fun _ => none) (normalizePubkey pkA) pkA 3 = .ok (some r) ∧
      r.hops = 0 ∧ r.paths = 1 ∧ r.bridges = [] :=
  getDetails_self_zero_hops (fun _ => none) pkA 3 (by decide)

/-- C10. `isInMyWoT` equals `getDistance` mapped through `Option.isSome`:
the additional `distance <= maxHops` check never changes the answer,
because the BFS never reports a distance above the bound it was given;
validation failures propagate identically on both sides. -/
theorem isInMyWoT_eq_isSome_getDistance (g : Graph) (myPubkey target : Pubkey)
    (maxHops : Nat) :
    isInMyWoT g myPubkey target maxHops =
      Except.map Option.isSome (getDistance g myPubkey target maxHops) := by
  cases hv : validatePubkey target "target" with
  | error e =>
    have hg : getDistance g myPubkey target maxHops = .error e := by
      simp [getDistance, hv]
    simp [isInMyWoT, hg, Except.map]
  | ok t =>
    cases hf : findShortestPath g myPubkey t maxHops with
    | none =>
      have hg : getDistance g myPubkey target maxHops = .ok none := by
        simp [getDistance, hv, hf]
      simp [isInMyWoT, hg, Except.map]
    | some r =>
      have hg : getDistance g myPubkey target maxHops = .ok (some r.1) := by
        simp [getDistance, hv, hf]
      have hle : r.1 ≤ maxHops := (findShortestPath_sound g myPubkey t maxHops r hf).2
      simp [isInMyWoT, hg, Except.map, hle]

/-- C3, evaluation at the failing input. In the snapshot where `pkR`
follows exactly `pkA` and `pkB` and both follow `pkT`, the depth-2 query
for `pkT` reports 2 hops and 2 paths as the scenario expects, but the
bridge set is only `[pkA]` rather than both first-hop identities: the
source calls `Array.find` with an `async` predicate whose returned
promise is always truthy, so the recorded bridge is always the first
element of the current layer. -/
theorem getDetails_bridge_scenario :
    getDetails gScenario pkR pkT 2 =
      .ok (some { hops := 2, paths := 2, bridges := [pkA], isMutual := some false }) := by
  rfl

/-- Clamping with `min 1 (max 0 _)` always lands in the unit interval. -/
theorem clamp_mem_unitInterval (q : ℚ) :
    0 ≤ min 1 (max 0 q) ∧ min 1 (max 0 q) ≤ 1 :=
  ⟨le_min (by norm_num) (le_max_left 0 q), min_le_left 1 (max 0 q)⟩

/-- C1, counterexample. For the direct mutual follow under the default
weights the code computes `1/2 * 1 * (1 + 1/2) = 3/4`, while the additive
formula claimed by the spec gives `clamp(1/2 * 1 + 1/2) = 1`, so the
claimed formula does not describe `calculateTrustScore`. -/
theorem calculateTrustScore_not_additive :
    calculateTrustScore resultMutualOneHop DEFAULT_SCORING ≠
      specScoreAdd resultMutualOneHop DEFAULT_SCORING := by
  norm_num [calculateTrustScore, specScoreAdd, specWeight, specBonus, DEFAULT_SCORING,
    resultMutualOneHop, lookupA, min_def, max_def]

/-- C1, amended. For every query result and weight configuration the
trust score equals `clamp(base * distanceWeight * (1 + bonus), 0, 1)`
with `base = 1/(hops+1)` and
`bonus = (mutual ? mutualBonus : 0) + min(pathBonus * (paths - 1), maxPathBonus)`
for `paths > 1` (else that term is 0): the bonus multiplies the weighted
base instead of being added to it. -/
theorem calculateTrustScore_eq_specScoreMul
    (result : DistanceResult) (scoring : ScoringConfig) :
    calculateTrustScore result scoring = specScoreMul result scoring := by
  simp only [calculateTrustScore, specScoreMul, specWeight, specBonus]
  split_ifs <;> ring_nf

/-- C9. For every input result (any hop count, path count and mutual
flag) and every weight configuration, including one whose bonuses push
the raw formula above 1, the computed trust score lies in `[0, 1]`. -/
theorem calculateTrustScore_mem_unitInterval
    (result : DistanceResult) (scoring : ScoringConfig) :
    0 ≤ calculateTrustScore result scoring ∧ calculateTrustScore result scoring ≤ 1 := by
  simp only [calculateTrustScore]
  exact clamp_mem_unitInterval _

end NostrWot
